import Mathlib

/-!
Verification of the rate-controller (debounce/throttle) and persistent
key-value cache (localStorage wrappers) of `src/js/common.js`.

The JSON value model below stands for the data `JSON.stringify` /
`JSON.parse` operate on; `Str` is a string modelled as a list of
characters.  Numbers are modelled as integers and string escaping covers
the quote and backslash characters; this is the serializable fragment the
claims exercise.
-/

/-- Text is modelled as a list of characters. -/
abbrev Str := List Char

mutual
/-- Modelled from the spec: the arbitrary serializable data stored in the
cache ("value: arbitrary serializable data").  Mutual with `JArr` (array
contents) and `JObj` (object members) so that structural recursion stays
simple. -/
inductive JValue : Type where
  | jnull : JValue
  | jbool : Bool → JValue
  | jnum : Int → JValue
  | jstr : Str → JValue
  | jarr : JArr → JValue
  | jobj : JObj → JValue
  deriving DecidableEq

inductive JArr : Type where
  | nil : JArr
  | cons : JValue → JArr → JArr
  deriving DecidableEq

inductive JObj : Type where
  | nil : JObj
  | cons : Str → JValue → JObj → JObj
  deriving DecidableEq
end

/-- Escape of a single character inside a JSON string literal. -/
def escChar (c : Char) : List Char :=
  if c = '"' ∨ c = '\\' then ['\\', c] else [c]

/-- Escape of a whole string body. -/
def escapeStr : List Char → List Char
  | [] => []
  | c :: tl => escChar c ++ escapeStr tl

/-- Decimal digit characters of a natural number, least significant first,
with explicit fuel so that it reduces by computation. -/
def emitNatAux : Nat → Nat → List Char
  | 0, _ => []
  | f + 1, n => if n = 0 then [] else Nat.digitChar (n % 10) :: emitNatAux f (n / 10)

/-- Decimal digit characters of a natural number, most significant first. -/
def emitNat (n : Nat) : List Char :=
  if n = 0 then ['0'] else (emitNatAux n n).reverse

/-- Decimal representation of an integer. -/
def emitInt (n : Int) : List Char :=
  if n < 0 then '-' :: emitNat n.natAbs else emitNat n.toNat

mutual
/-- Modelled from the spec: `JSON.stringify`, the platform serializer the
cache delegates to ("serializes `value` to a text representation"). -/
def emitVal : JValue → List Char
  | JValue.jnull => ['n', 'u', 'l', 'l']
  | JValue.jbool true => ['t', 'r', 'u', 'e']
  | JValue.jbool false => ['f', 'a', 'l', 's', 'e']
  | JValue.jnum n => emitInt n
  | JValue.jstr s => '"' :: (escapeStr s ++ ['"'])
  | JValue.jarr xs => '[' :: emitArrBody xs
  | JValue.jobj fs => '{' :: emitObjBody fs
  termination_by structural v => v

/-- Emission of the contents of an array, closing bracket included. -/
def emitArrBody : JArr → List Char
  | JArr.nil => [']']
  | JArr.cons v tl => emitVal v ++ emitArrTail tl
  termination_by structural xs => xs

/-- Emission of the remainder of an array after its first element. -/
def emitArrTail : JArr → List Char
  | JArr.nil => [']']
  | JArr.cons v tl => ',' :: (emitVal v ++ emitArrTail tl)
  termination_by structural xs => xs

/-- Emission of the contents of an object, closing brace included. -/
def emitObjBody : JObj → List Char
  | JObj.nil => ['}']
  | JObj.cons k v tl =>
    '"' :: (escapeStr k ++ '"' :: ':' :: emitVal v) ++ emitObjTail tl
  termination_by structural fs => fs

/-- Emission of the remainder of an object after its first member. -/
def emitObjTail : JObj → List Char
  | JObj.nil => ['}']
  | JObj.cons k v tl =>
    ',' :: ('"' :: (escapeStr k ++ '"' :: ':' :: emitVal v) ++ emitObjTail tl)
  termination_by structural fs => fs
end

/-- Emission of one object member, `"key":value`. -/
def emitMember (k : Str) (v : JValue) : List Char :=
  '"' :: (escapeStr k ++ '"' :: ':' :: emitVal v)

/-- The serializer, named after the platform primitive it models. -/
def stringifyJ (v : JValue) : Str := emitVal v

/-- Body of a JSON string literal: characters up to the closing quote,
undoing `escChar`. -/
def parseStrBody : List Char → Option (List Char × List Char)
  | [] => none
  | c :: rest =>
    if c = '"' then some ([], rest)
    else if c = '\\' then
      match rest with
      | [] => none
      | d :: rest2 =>
        if d = '"' ∨ d = '\\' then
          match parseStrBody rest2 with
          | some (s, r) => some (d :: s, r)
          | none => none
        else none
    else
      match parseStrBody rest with
      | some (s, r) => some (c :: s, r)
      | none => none

/-- Longest prefix of decimal digit characters, with the remainder. -/
def parseNatDigits : List Char → List Char × List Char
  | [] => ([], [])
  | c :: rest =>
    if c.isDigit then
      let p := parseNatDigits rest
      (c :: p.1, p.2)
    else ([], c :: rest)

/-- Numeric value of a big-endian list of digit characters. -/
def digitsVal (ds : List Char) : Nat :=
  ds.foldl (fun acc c => acc * 10 + (c.toNat - 48)) 0

/-- Integer literal at the front of the input. -/
def parseIntTok : List Char → Option (Int × List Char)
  | [] => none
  | c :: rest =>
    if c = '-' then
      let p := parseNatDigits rest
      if p.1 = [] then none else some (-(digitsVal p.1 : Int), p.2)
    else
      let p := parseNatDigits (c :: rest)
      if p.1 = [] then none else some ((digitsVal p.1 : Int), p.2)

/-- A JSON string key followed by a colon, as at the front of an object
member. -/
def parseMemberKey : List Char → Option (Str × List Char)
  | [] => none
  | c :: rest =>
    if c = '"' then
      match parseStrBody rest with
      | some (k, ':' :: r) => some (k, r)
      | some (_, _) => none
      | none => none
    else none

mutual
/-- Modelled from the spec: `JSON.parse`, the platform deserializer the
cache delegates to ("deserializes and returns the reconstructed value";
invalid text makes it fail).  Fuel-indexed recursive descent; `parseJ`
below supplies sufficient fuel. -/
def parseVal : Nat → List Char → Option (JValue × List Char)
  | 0, _ => none
  | _ + 1, [] => none
  | f + 1, c :: rest =>
    if c = 'n' then
      match rest with
      | 'u' :: 'l' :: 'l' :: r => some (JValue.jnull, r)
      | _ => none
    else if c = 't' then
      match rest with
      | 'r' :: 'u' :: 'e' :: r => some (JValue.jbool true, r)
      | _ => none
    else if c = 'f' then
      match rest with
      | 'a' :: 'l' :: 's' :: 'e' :: r => some (JValue.jbool false, r)
      | _ => none
    else if c = '"' then
      match parseStrBody rest with
      | some (s, r) => some (JValue.jstr s, r)
      | none => none
    else if c = '[' then
      match rest with
      | [] => none
      | d :: rest2 =>
        if d = ']' then some (JValue.jarr JArr.nil, rest2)
        else
          match parseVal f (d :: rest2) with
          | some (v, r) =>
            match parseArrTail f r with
            | some (tl, r2) => some (JValue.jarr (JArr.cons v tl), r2)
            | none => none
          | none => none
    else if c = '{' then
      match rest with
      | [] => none
      | d :: rest2 =>
        if d = '}' then some (JValue.jobj JObj.nil, rest2)
        else
          match parseMemberKey (d :: rest2) with
          | some (k, r) =>
            match parseVal f r with
            | some (v, r2) =>
              match parseObjTail f r2 with
              | some (tl, r3) => some (JValue.jobj (JObj.cons k v tl), r3)
              | none => none
            | none => none
          | none => none
    else
      match parseIntTok (c :: rest) with
      | some (n, r) => some (JValue.jnum n, r)
      | none => none
  termination_by structural f => f

/-- Remainder of an array after one element: `]` or `,` then more. -/
def parseArrTail : Nat → List Char → Option (JArr × List Char)
  | 0, _ => none
  | _ + 1, [] => none
  | f + 1, c :: rest =>
    if c = ']' then some (JArr.nil, rest)
    else if c = ',' then
      match parseVal f rest with
      | some (v, r) =>
        match parseArrTail f r with
        | some (tl, r2) => some (JArr.cons v tl, r2)
        | none => none
      | none => none
    else none
  termination_by structural f => f

/-- Remainder of an object after one member: `}` or `,` then more. -/
def parseObjTail : Nat → List Char → Option (JObj × List Char)
  | 0, _ => none
  | _ + 1, [] => none
  | f + 1, c :: rest =>
    if c = '}' then some (JObj.nil, rest)
    else if c = ',' then
      match parseMemberKey rest with
      | some (k, r) =>
        match parseVal f r with
        | some (v, r2) =>
          match parseObjTail f r2 with
          | some (tl, r3) => some (JObj.cons k v tl, r3)
          | none => none
        | none => none
      | none => none
    else none
  termination_by structural f => f
end

/-- The deserializer: parse with fuel bounded by the input length and
require the whole input to be consumed; `none` models `JSON.parse`
throwing a syntax error. -/
def parseJ (l : Str) : Option JValue :=
  match parseVal (l.length + 1) l with
  | some (v, []) => some v
  | _ => none

/-!
The persistent key-value store.  `Store` models the browser's
origin-scoped `localStorage` contents as an association list from keys to
serialized text; `FailSpec` says which underlying primitive operations
throw, so that the wrappers' try/catch translation can be stated for any
failure of the store or of serialization.
-/

/-- Modelled from the spec: the contents of the host's synchronous
origin-scoped key-value store ("a key (text) to value mapping persisted
outside process memory; keys unique within the store"). -/
abbrev Store := List (Str × Str)

/-- Text stored under a key, if any: the effect of `localStorage.getItem`
on the store contents. -/
def Store.lookupKey : Store → Str → Option Str
  | [], _ => none
  | (k', v) :: tl, k => if k' = k then some v else Store.lookupKey tl k

/-- Overwrite-or-append of a key: the effect of `localStorage.setItem`. -/
def Store.insertKey : Store → Str → Str → Store
  | [], k, v => [(k, v)]
  | (k', v') :: tl, k, v =>
    if k' = k then (k, v) :: tl else (k', v') :: Store.insertKey tl k v

/-- Deletion of a key: the effect of `localStorage.removeItem`. -/
def Store.removeKey : Store → Str → Store
  | [], _ => []
  | (k', v') :: tl, k =>
    if k' = k then Store.removeKey tl k else (k', v') :: Store.removeKey tl k

/-- Which underlying primitive operations throw.  Quantifying over a
`FailSpec` quantifies over every failure of the underlying store (quota,
etc.) and of serialization. -/
structure FailSpec : Type where
  stringifyFails : JValue → Bool
  setFails : Str → Str → Bool
  getFails : Str → Bool
  removeFails : Str → Bool
  clearFails : Bool

/-- The `FailSpec` under which nothing fails. -/
def noFail : FailSpec := ⟨fun _ => false, fun _ _ => false, fun _ => false, fun _ => false, false⟩

/-- `JSON.stringify` as a fallible primitive (it can throw, e.g. on
circular data; which inputs do is part of the failure specification). -/
def rawStringify (fs : FailSpec) (v : JValue) : Except Unit Str :=
  if fs.stringifyFails v then Except.error () else Except.ok (stringifyJ v)

/-- `JSON.parse` as a fallible primitive: throws exactly on text that does
not parse. -/
def rawParse (item : Str) : Except Unit JValue :=
  match parseJ item with
  | some v => Except.ok v
  | none => Except.error ()

/-- `localStorage.setItem` as a fallible primitive (quota errors). -/
def rawSetItem (fs : FailSpec) (st : Store) (k text : Str) : Except Unit Store :=
  if fs.setFails k text then Except.error () else Except.ok (st.insertKey k text)

/-- `localStorage.getItem` as a fallible primitive; `none` is the `null`
it returns on a missing key. -/
def rawGetItem (fs : FailSpec) (st : Store) (k : Str) : Except Unit (Option Str) :=
  if fs.getFails k then Except.error () else Except.ok (st.lookupKey k)

/-- `localStorage.removeItem` as a fallible primitive. -/
def rawRemoveItem (fs : FailSpec) (st : Store) (k : Str) : Except Unit Store :=
  if fs.removeFails k then Except.error () else Except.ok (st.removeKey k)

/-- `localStorage.clear` as a fallible primitive. -/
def rawClear (fs : FailSpec) (_st : Store) : Except Unit Store :=
  if fs.clearFails then Except.error () else Except.ok []

/-- Translation of `setStorage` (src/js/common.js:268-274): inside a
`try`, serialize the value and store the text; the `catch` logs (the
`Bool` in the result records whether `console.error` ran) and returns
normally. -/
def setStorage (fs : FailSpec) (st : Store) (key : Str) (value : JValue) : Store × Bool :=
  match rawStringify fs value with
  | Except.error _ => (st, true)
  | Except.ok text =>
    match rawSetItem fs st key text with
    | Except.error _ => (st, true)
    | Except.ok st' => (st', false)

/-- Translation of `getStorage` (src/js/common.js:281-289): inside a
`try`, read the item and return `item ? JSON.parse(item) : null`; the
`catch` logs and returns `null`.  The JavaScript truthiness test makes
both a missing item (`null`) and the empty string take the `null` branch
without parsing.  The sentinel "no value" result is `JValue.jnull`. -/
def getStorage (fs : FailSpec) (st : Store) (key : Str) : JValue × Bool :=
  match rawGetItem fs st key with
  | Except.error _ => (JValue.jnull, true)
  | Except.ok none => (JValue.jnull, false)
  | Except.ok (some item) =>
    if item = [] then (JValue.jnull, false)
    else
      match rawParse item with
      | Except.error _ => (JValue.jnull, true)
      | Except.ok v => (v, false)

/-- Translation of `removeStorage` (src/js/common.js:295-301). -/
def removeStorage (fs : FailSpec) (st : Store) (key : Str) : Store × Bool :=
  match rawRemoveItem fs st key with
  | Except.error _ => (st, true)
  | Except.ok st' => (st', false)

/-- Translation of `clearStorage` (src/js/common.js:306-312). -/
def clearStorage (fs : FailSpec) (st : Store) : Store × Bool :=
  match rawClear fs st with
  | Except.error _ => (st, true)
  | Except.ok st' => (st', false)

/-!
The rate controller.  `debounce` and `throttle` return closures whose
only state is, respectively, the pending timer handle and the
`inThrottle` flag.  The embedding runs the wrapper over a time-ordered
list of invocations `(t, a)` (time, arguments) on the single-threaded
event loop: before an invocation is processed, any timer whose due time
has been reached has already fired.  The result is the list of `(t, a)`
executions of the wrapped `action`, in order.
-/

/-- Translation of `debounce` (src/js/common.js:493-503) run over a list
of timed invocations.  The state is the pending timeout: its due time and
the arguments captured by `later`.  Each invocation first lets a due
timer fire (executing `func` with the captured arguments), then performs
`clearTimeout(timeout); timeout = setTimeout(later, wait)`.  After the
last invocation the remaining timer, if any, fires. -/
def debounceRun {α : Type} (wait : Nat) : List (Nat × α) → Option (Nat × α) → List (Nat × α)
  | [], none => []
  | [], some p => [p]
  | (t, a) :: rest, none => debounceRun wait rest (some (t + wait, a))
  | (t, a) :: rest, some (tp, ap) =>
    if tp ≤ t then (tp, ap) :: debounceRun wait rest (some (t + wait, a))
    else debounceRun wait rest (some (t + wait, a))

/-- Translation of `throttle` (src/js/common.js:511-520) run over a list
of timed invocations.  The state is `none` when `inThrottle` is falsy
(initially `undefined`) and `some r` when `inThrottle` is `true` with the
resetting `setTimeout` due at time `r`; by the time an invocation at
`t ≥ r` is processed that timer has fired, so the gate is open again. -/
def throttleRun {α : Type} (limit : Nat) : List (Nat × α) → Option Nat → List (Nat × α)
  | [], _ => []
  | (t, a) :: rest, none => (t, a) :: throttleRun limit rest (some (t + limit))
  | (t, a) :: rest, some r =>
    if r ≤ t then (t, a) :: throttleRun limit rest (some (t + limit))
    else throttleRun limit rest (some r)

/-- The failure specification under which every primitive throws. -/
def allFail : FailSpec := ⟨fun _ => true, fun _ _ => true, fun _ => true, fun _ => true, true⟩

/-- The failure specification under which only `localStorage.setItem`
throws (a storage error forced during `set`, as in spec property 8). -/
def setOnlyFail : FailSpec :=
  ⟨fun _ => false, fun _ _ => true, fun _ => false, fun _ => false, false⟩

/-- Truth of "the remainder does not begin with a decimal digit", the
separator condition under which a number token stops being consumed. -/
def headNotDigit : List Char → Bool
  | [] => true
  | c :: _ => !c.isDigit

mutual
/-- Fuel needed by `parseVal` to parse the emission of a value. -/
def sizeV : JValue → Nat
  | JValue.jnull => 1
  | JValue.jbool _ => 1
  | JValue.jnum _ => 1
  | JValue.jstr _ => 1
  | JValue.jarr xs => sizeA xs
  | JValue.jobj fs => sizeO fs
  termination_by structural v => v

/-- Fuel needed by `parseArrTail` to parse an emitted array tail. -/
def sizeA : JArr → Nat
  | JArr.nil => 1
  | JArr.cons v tl => sizeV v + sizeA tl + 1
  termination_by structural xs => xs

/-- Fuel needed by `parseObjTail` to parse an emitted object tail. -/
def sizeO : JObj → Nat
  | JObj.nil => 1
  | JObj.cons _ v tl => sizeV v + sizeO tl + 1
  termination_by structural fs => fs
end

/-!
Rate-controller theorems.
-/

/-- Core debounce invariant: while every further invocation arrives
strictly before the pending timer is due, the timer keeps being replaced,
and in the end exactly the last invocation's timer fires. -/
theorem debounce_go {α : Type} (wait : Nat) :
    ∀ (calls : List (Nat × α)) (tc : Nat) (ac : α),
      List.Chain (fun p q => q.1 < p.1 + wait) (tc, ac) calls →
      debounceRun wait calls (some (tc + wait, ac)) =
        [((calls.getLastD (tc, ac)).1 + wait, (calls.getLastD (tc, ac)).2)] := by
  intro calls
  induction calls with
  | nil => intro tc ac _; simp [debounceRun]
  | cons hd rest ih =>
    intro tc ac hch
    obtain ⟨t, a⟩ := hd
    cases hch with
    | cons hlt hch' =>
      simp only [debounceRun]
      rw [if_neg (by simp only [] at hlt; omega)]
      rw [ih t a hch']
      rw [List.getLastD_cons]

/-- C1: a burst of invocations each strictly within `wait` of the
previous one executes the action exactly once, `wait` after the last
invocation, with the last invocation's arguments. -/
theorem debounce_coalesces_burst {α : Type} (wait t0 : Nat) (a0 : α)
    (calls : List (Nat × α))
    (hband : List.Chain (fun p q => q.1 < p.1 + wait) (t0, a0) calls) :
    debounceRun wait ((t0, a0) :: calls) none =
      [((calls.getLastD (t0, a0)).1 + wait, (calls.getLastD (t0, a0)).2)] := by
  simp only [debounceRun]
  exact debounce_go wait calls t0 a0 hband

/-- Witness for `debounce_coalesces_burst` at a concrete burst. -/
theorem debounce_coalesces_burst_witness :
    List.Chain (fun p q : Nat × Nat => q.1 < p.1 + 10) (0, 1) [(3, 2), (9, 3)] ∧
    debounceRun 10 [(0, 1), (3, 2), (9, 3)] none = [(19, 3)] :=
  ⟨List.Chain.cons (by decide) (List.Chain.cons (by decide) List.Chain.nil),
   (debounce_coalesces_burst 10 0 1 [(3, 2), (9, 3)]
     (List.Chain.cons (by decide) (List.Chain.cons (by decide) List.Chain.nil))).trans
     (by decide)⟩

/-- Core spaced-calls invariant: when every further invocation arrives at
or after the pending timer's due time, each pending timer fires before
the next invocation is processed. -/
theorem debounce_spaced_go {α : Type} (wait : Nat) :
    ∀ (calls : List (Nat × α)) (tc : Nat) (ac : α),
      List.Chain (fun p q => p.1 + wait < q.1) (tc, ac) calls →
      debounceRun wait calls (some (tc + wait, ac)) =
        (tc + wait, ac) :: calls.map (fun p => (p.1 + wait, p.2)) := by
  intro calls
  induction calls with
  | nil => intro tc ac _; simp [debounceRun]
  | cons hd rest ih =>
    intro tc ac hch
    obtain ⟨t, a⟩ := hd
    cases hch with
    | cons hlt hch' =>
      simp only [debounceRun]
      rw [if_pos (by simp only [] at hlt; omega)]
      rw [ih t a hch']
      simp

/-- C7: invocations spaced more than `wait` apart each execute the
action once, `wait` after the respective invocation, with that
invocation's arguments. -/
theorem debounce_spaced_fires_each {α : Type} (wait : Nat)
    (calls : List (Nat × α))
    (hspaced : List.Chain' (fun p q => p.1 + wait < q.1) calls) :
    debounceRun wait calls none = calls.map (fun p => (p.1 + wait, p.2)) := by
  cases calls with
  | nil => simp [debounceRun]
  | cons hd rest =>
    obtain ⟨t, a⟩ := hd
    simp only [debounceRun]
    exact debounce_spaced_go wait rest t a hspaced

/-- Witness for `debounce_spaced_fires_each` at concrete spaced calls. -/
theorem debounce_spaced_fires_each_witness :
    List.Chain' (fun p q : Nat × Nat => p.1 + 10 < q.1) [(0, 1), (20, 2)] ∧
    debounceRun 10 [(0, 1), (20, 2)] none = [(10, 1), (30, 2)] :=
  ⟨List.chain'_cons.mpr ⟨by decide, List.chain'_singleton _⟩,
   (debounce_spaced_fires_each 10 [(0, 1), (20, 2)]
     (List.chain'_cons.mpr ⟨by decide, List.chain'_singleton _⟩)).trans (by decide)⟩

/-- Core throttle invariant: starting right after an execution at time
`tf` (gate closed until `tf + limit`), the executions are a sublist of
the invocations, consecutive executions (the one at `tf` included) are at
least `limit` apart, and every dropped invocation falls inside the
`limit`-window opened by an earlier execution. -/
theorem throttle_go {α : Type} (limit : Nat) :
    ∀ (calls : List (Nat × α)) (tf : Nat) (af : α),
      List.Pairwise (fun p q => p.1 < q.1) ((tf, af) :: calls) →
      (throttleRun limit calls (some (tf + limit))).Sublist calls ∧
      List.Pairwise (fun p q => p.1 + limit ≤ q.1)
        ((tf, af) :: throttleRun limit calls (some (tf + limit))) ∧
      (∀ c ∈ calls, c ∉ throttleRun limit calls (some (tf + limit)) →
        ∃ g ∈ (tf, af) :: throttleRun limit calls (some (tf + limit)),
          g.1 ≤ c.1 ∧ c.1 < g.1 + limit) := by
  intro calls
  induction calls with
  | nil =>
    intro tf af _
    refine ⟨List.Sublist.refl _, ?_, ?_⟩
    · simp [throttleRun]
    · simp [throttleRun]
  | cons hd rest ih =>
    intro tf af hp
    obtain ⟨t, a⟩ := hd
    cases hp with
    | cons hall hp' =>
      have htlt : tf < t := hall (t, a) (List.mem_cons_self _ _)
      by_cases hgate : tf + limit ≤ t
      · simp only [throttleRun, if_pos hgate]
        obtain ⟨hsub, hpw, hdrop⟩ := ih t a hp'
        cases hpw with
        | cons hall2 hpR =>
          refine ⟨List.Sublist.cons₂ _ hsub, ?_, ?_⟩
          · refine List.Pairwise.cons ?_ (List.Pairwise.cons hall2 hpR)
            intro b hb
            rcases List.mem_cons.mp hb with hb | hb
            · subst hb; exact hgate
            · have := hall2 b hb
              omega
          · intro c hc hnc
            rcases List.mem_cons.mp hc with hceq | hc
            · exact absurd (hceq ▸ List.mem_cons_self _ _) hnc
            · have hnc' : c ∉ throttleRun limit rest (some (t + limit)) :=
                fun h => hnc (List.mem_cons_of_mem _ h)
              obtain ⟨g, hg, h1, h2⟩ := hdrop c hc hnc'
              exact ⟨g, List.mem_cons_of_mem _ hg, h1, h2⟩
      · simp only [throttleRun, if_neg hgate]
        have hp'' : List.Pairwise (fun p q : Nat × α => p.1 < q.1) ((tf, af) :: rest) := by
          refine List.Pairwise.cons ?_ (List.Pairwise.sublist (List.sublist_cons_self _ _) hp')
          intro b hb
          exact hall b (List.mem_cons_of_mem _ hb)
        obtain ⟨hsub, hpw, hdrop⟩ := ih tf af hp''
        refine ⟨hsub.cons _, hpw, ?_⟩
        intro c hc hnc
        rcases List.mem_cons.mp hc with hceq | hc
        · subst hceq
          exact ⟨(tf, af), List.mem_cons_self _ _, by omega, by omega⟩
        · exact hdrop c hc hnc

/-- C2: over strictly time-ordered invocations, the executions of a
throttled wrapper are a sublist of the invocations (each executed
immediately, with that invocation's own time and arguments), any two
executions are at least `limit` apart (at most one per window), the very
first invocation is executed (leading edge), and every dropped
invocation lies inside the closed-gate window of an earlier execution —
no queueing and no trailing execution. -/
theorem throttle_leading_edge {α : Type} (limit : Nat) (calls : List (Nat × α))
    (hsort : List.Pairwise (fun p q => p.1 < q.1) calls) :
    (throttleRun limit calls none).Sublist calls ∧
    List.Pairwise (fun p q => p.1 + limit ≤ q.1) (throttleRun limit calls none) ∧
    (throttleRun limit calls none).head? = calls.head? ∧
    (∀ c ∈ calls, c ∉ throttleRun limit calls none →
      ∃ g ∈ throttleRun limit calls none, g.1 ≤ c.1 ∧ c.1 < g.1 + limit) := by
  cases calls with
  | nil => exact ⟨List.Sublist.refl _, by simp [throttleRun], by simp [throttleRun], by simp [throttleRun]⟩
  | cons hd rest =>
    obtain ⟨t, a⟩ := hd
    simp only [throttleRun]
    obtain ⟨hsub, hpw, hdrop⟩ := throttle_go limit rest t a hsort
    refine ⟨List.Sublist.cons₂ _ hsub, hpw, rfl, ?_⟩
    intro c hc hnc
    rcases List.mem_cons.mp hc with hceq | hc
    · exact absurd (hceq ▸ List.mem_cons_self _ _) hnc
    · have hnc' : c ∉ throttleRun limit rest (some (t + limit)) :=
        fun h => hnc (List.mem_cons_of_mem _ h)
      exact hdrop c hc hnc'

/-- Witness for `throttle_leading_edge` at the spec's example: calls at
0, 10, 50 with `limit` 100 execute only the call at time 0. -/
theorem throttle_leading_edge_witness :
    List.Pairwise (fun p q : Nat × Nat => p.1 < q.1) [(0, 1), (10, 2), (50, 3)] ∧
    (throttleRun 100 [(0, 1), (10, 2), (50, 3)] none = [(0, 1)] ∧
      (throttleRun 100 [(0, 1), (10, 2), (50, 3)] none).Sublist [(0, 1), (10, 2), (50, 3)] ∧
      (throttleRun 100 [(0, 1), (10, 2), (50, 3)] none).head? = some (0, 1)) := by
  have hp : List.Pairwise (fun p q : Nat × Nat => p.1 < q.1) [(0, 1), (10, 2), (50, 3)] := by
    refine List.Pairwise.cons ?_ (List.Pairwise.cons ?_ (List.Pairwise.cons ?_ List.Pairwise.nil)) <;>
      intro b hb <;> fin_cases hb <;> decide
  obtain ⟨hsub, -, hhead, -⟩ := throttle_leading_edge 100 [(0, 1), (10, 2), (50, 3)] hp
  exact ⟨hp, by decide, hsub, by rw [hhead]; rfl⟩

/-- C8: once the gate has reopened — the invocation arrives at least
`limit` after the last execution at `tf` — that invocation executes the
action immediately, with its own arguments, and closes the gate again. -/
theorem throttle_fires_after_reopen {α : Type} (limit tf t : Nat) (a : α)
    (rest : List (Nat × α)) (hopen : tf + limit ≤ t) :
    throttleRun limit ((t, a) :: rest) (some (tf + limit)) =
      (t, a) :: throttleRun limit rest (some (t + limit)) := by
  simp only [throttleRun, if_pos hopen]

/-- Witness for `throttle_fires_after_reopen` at a concrete reopening. -/
theorem throttle_fires_after_reopen_witness :
    0 + 100 ≤ 100 ∧ throttleRun 100 [(100, 7)] (some (0 + 100)) = [(100, 7)] :=
  ⟨by decide, (throttle_fires_after_reopen 100 0 100 7 [] (by decide)).trans (by decide)⟩

/-!
Persistent key-value cache theorems.
-/

/-- Reading a key immediately after writing it yields the written text. -/
theorem Store.lookupKey_insertKey (st : Store) (k v : Str) :
    (st.insertKey k v).lookupKey k = some v := by
  induction st with
  | nil => simp [Store.insertKey, Store.lookupKey]
  | cons hd tl ih =>
    obtain ⟨k', v'⟩ := hd
    by_cases h : k' = k
    · simp [Store.insertKey, Store.lookupKey, h]
    · simp [Store.insertKey, Store.lookupKey, h, ih]

/-- A `set` whose serialization or storage write throws is caught: it
returns normally with the store unchanged and the log emitted. -/
theorem setStorage_fail (fs : FailSpec) (st : Store) (k : Str) (v : JValue)
    (hfail : fs.stringifyFails v = true ∨ fs.setFails k (stringifyJ v) = true) :
    setStorage fs st k v = (st, true) := by
  rcases hfail with h | h
  · simp [setStorage, rawStringify, h]
  · by_cases h' : fs.stringifyFails v
    · simp [setStorage, rawStringify, h']
    · simp [setStorage, rawStringify, rawSetItem, h, h']

/-- A `set` with working serialization and store write stores the
serialized text. -/
theorem setStorage_ok (fs : FailSpec) (st : Store) (k : Str) (v : JValue)
    (h1 : fs.stringifyFails v = false) (h2 : fs.setFails k (stringifyJ v) = false) :
    setStorage fs st k v = (st.insertKey k (stringifyJ v), false) := by
  simp [setStorage, rawStringify, rawSetItem, h1, h2]

/-- A `get` whose underlying read throws is caught: it returns the
sentinel and logs. -/
theorem getStorage_fail (fs : FailSpec) (st : Store) (k : Str)
    (h : fs.getFails k = true) : getStorage fs st k = (JValue.jnull, true) := by
  simp [getStorage, rawGetItem, h]

/-- A `get` on an absent key returns the sentinel without logging. -/
theorem getStorage_miss (fs : FailSpec) (st : Store) (k : Str)
    (hget : fs.getFails k = false) (hmiss : st.lookupKey k = none) :
    getStorage fs st k = (JValue.jnull, false) := by
  simp [getStorage, rawGetItem, hget, hmiss]

/-- A `get` on a stored text that fails to deserialize returns the
sentinel. -/
theorem getStorage_corrupt (fs : FailSpec) (st : Store) (k : Str) (item : Str)
    (hget : fs.getFails k = false) (hsome : st.lookupKey k = some item)
    (hbad : parseJ item = none) : (getStorage fs st k).1 = JValue.jnull := by
  by_cases hnil : item = []
  · simp [getStorage, rawGetItem, hget, hsome, hnil]
  · simp [getStorage, rawGetItem, hget, hsome, hnil, rawParse, hbad]

/-- A `remove` whose underlying delete throws is caught: no-op plus log. -/
theorem removeStorage_fail (fs : FailSpec) (st : Store) (k : Str)
    (h : fs.removeFails k = true) : removeStorage fs st k = (st, true) := by
  simp [removeStorage, rawRemoveItem, h]

/-- A `clear` whose underlying clear throws is caught: no-op plus log. -/
theorem clearStorage_fail (fs : FailSpec) (st : Store)
    (h : fs.clearFails = true) : clearStorage fs st = (st, true) := by
  simp [clearStorage, rawClear, h]

/-- A working `clear` empties the store without logging. -/
theorem clearStorage_ok (fs : FailSpec) (st : Store)
    (h : fs.clearFails = false) : clearStorage fs st = ([], false) := by
  simp [clearStorage, rawClear, h]

/-- C4: no cache operation propagates a thrown error, whichever
underlying primitive fails: the wrapper still returns, the store is left
unchanged (a no-op), the diagnostic log runs, and `get` degrades to the
sentinel. -/
theorem storage_never_throws (fs : FailSpec) (st : Store) (k : Str) (v : JValue) :
    ((fs.stringifyFails v = true ∨ fs.setFails k (stringifyJ v) = true) →
      setStorage fs st k v = (st, true)) ∧
    (fs.getFails k = true → getStorage fs st k = (JValue.jnull, true)) ∧
    (fs.removeFails k = true → removeStorage fs st k = (st, true)) ∧
    (fs.clearFails = true → clearStorage fs st = (st, true)) :=
  ⟨setStorage_fail fs st k v, getStorage_fail fs st k,
   removeStorage_fail fs st k, clearStorage_fail fs st⟩

/-- Witness for `storage_never_throws` under the all-failing store. -/
theorem storage_never_throws_witness :
    setStorage allFail [] ['k'] JValue.jnull = ([], true) ∧
    getStorage allFail [] ['k'] = (JValue.jnull, true) ∧
    removeStorage allFail [] ['k'] = ([], true) ∧
    clearStorage allFail [] = ([], true) := by
  obtain ⟨h1, h2, h3, h4⟩ := storage_never_throws allFail [] ['k'] JValue.jnull
  exact ⟨h1 (Or.inl rfl), h2 rfl, h3 rfl, h4 rfl⟩

/-- C5: with the underlying read not failing, a missing key yields the
sentinel `null`, and a stored text that fails to deserialize yields the
very same sentinel (the error is caught, never propagated), so a
corrupted entry is indistinguishable from a genuine miss. -/
theorem storage_miss_and_corrupt_sentinel (fs : FailSpec) (st : Store) (k : Str)
    (hget : fs.getFails k = false) :
    (st.lookupKey k = none → getStorage fs st k = (JValue.jnull, false)) ∧
    (∀ item, st.lookupKey k = some item → parseJ item = none →
      (getStorage fs st k).1 = JValue.jnull) :=
  ⟨getStorage_miss fs st k hget, fun item => getStorage_corrupt fs st k item hget⟩

/-- Witness for `storage_miss_and_corrupt_sentinel`: a genuine miss and a
corrupted entry both yield the sentinel. -/
theorem storage_miss_and_corrupt_sentinel_witness :
    getStorage noFail [] ['m'] = (JValue.jnull, false) ∧
    parseJ ['{', 'o', 'o', 'p', 's'] = none ∧
    (getStorage noFail [(['k'], ['{', 'o', 'o', 'p', 's'])] ['k']).1 = JValue.jnull := by
  refine ⟨(storage_miss_and_corrupt_sentinel noFail [] ['m'] rfl).1 rfl, by decide, ?_⟩
  exact (storage_miss_and_corrupt_sentinel noFail [(['k'], ['{', 'o', 'o', 'p', 's'])] ['k']
    rfl).2 ['{', 'o', 'o', 'p', 's'] rfl (by decide)

/-- C6 as stated is false: when a storage error is forced during `set` on
a key that already held a value, the failing `set` is a no-op, so the
subsequent `get` returns the previously stored value `5`, not the
sentinel. -/
theorem storage_failed_set_counterexample :
    (setStorage setOnlyFail [(['k'], stringifyJ (JValue.jnum 5))] ['k'] (JValue.jnum 7)).2
        = true ∧
    getStorage setOnlyFail
        (setStorage setOnlyFail [(['k'], stringifyJ (JValue.jnum 5))] ['k']
          (JValue.jnum 7)).1 ['k']
      = (JValue.jnum 5, false) ∧
    JValue.jnum 5 ≠ JValue.jnull := by
  refine ⟨rfl, by decide, by decide⟩

/-- C6 amended: a storage (or serialization) error forced during `set`
does not raise to the caller — `set` returns normally, logging, with the
store unchanged — and a subsequent `get` on that key returns the state
from before the failing `set`: in particular the "no value" sentinel
when the key held no entry. -/
theorem storage_failed_set_preserves (fs : FailSpec) (st : Store) (k : Str) (v : JValue)
    (hfail : fs.stringifyFails v = true ∨ fs.setFails k (stringifyJ v) = true) :
    (setStorage fs st k v).1 = st ∧ (setStorage fs st k v).2 = true ∧
    (fs.getFails k = false → st.lookupKey k = none →
      getStorage fs (setStorage fs st k v).1 k = (JValue.jnull, false)) := by
  have hset : setStorage fs st k v = (st, true) := setStorage_fail fs st k v hfail
  refine ⟨by rw [hset], by rw [hset], ?_⟩
  intro hget hmiss
  rw [hset]
  exact getStorage_miss fs st k hget hmiss

/-- Witness for `storage_failed_set_preserves` under a forced `setItem`
error on an initially empty store. -/
theorem storage_failed_set_preserves_witness :
    (setOnlyFail.setFails ['k'] (stringifyJ (JValue.jnum 7)) = true) ∧
    (setStorage setOnlyFail [] ['k'] (JValue.jnum 7)).1 = [] ∧
    getStorage setOnlyFail (setStorage setOnlyFail [] ['k'] (JValue.jnum 7)).1 ['k']
      = (JValue.jnull, false) := by
  obtain ⟨h1, -, h3⟩ :=
    storage_failed_set_preserves setOnlyFail [] ['k'] (JValue.jnum 7) (Or.inr rfl)
  exact ⟨rfl, h1, h3 rfl rfl⟩

/-- C9: with the underlying store not failing on `clear` and `get`,
`clear()` after `set(k, v)` deletes all entries, and a subsequent
`get(k)` returns the sentinel. -/
theorem storage_clear_then_miss (fs : FailSpec) (st : Store) (k : Str) (v : JValue)
    (hclear : fs.clearFails = false) (hget : fs.getFails k = false) :
    (clearStorage fs (setStorage fs st k v).1).1 = [] ∧
    getStorage fs (clearStorage fs (setStorage fs st k v).1).1 k
      = (JValue.jnull, false) := by
  have hcl : clearStorage fs (setStorage fs st k v).1 = ([], false) :=
    clearStorage_ok fs _ hclear
  refine ⟨by rw [hcl], ?_⟩
  rw [hcl]
  exact getStorage_miss fs [] k hget rfl

/-- Witness for `storage_clear_then_miss` at a concrete key and value. -/
theorem storage_clear_then_miss_witness :
    (clearStorage noFail (setStorage noFail [] ['k'] (JValue.jnum 3)).1).1 = [] ∧
    getStorage noFail (clearStorage noFail (setStorage noFail [] ['k'] (JValue.jnum 3)).1).1 ['k']
      = (JValue.jnull, false) :=
  storage_clear_then_miss noFail [] ['k'] (JValue.jnum 3) rfl rfl

/-!
Serialization round-trip: `parseJ (stringifyJ v) = some v`.
-/

/-- The character of a decimal digit is a digit character. -/
theorem isDigit_digitChar {d : Nat} (h : d < 10) : (Nat.digitChar d).isDigit = true := by
  interval_cases d <;> decide

/-- Numeric value of the character of a decimal digit. -/
theorem toNat_digitChar {d : Nat} (h : d < 10) : (Nat.digitChar d).toNat - 48 = d := by
  interval_cases d <;> decide

/-- A digit character is none of the parser's dispatch or separator
characters. -/
theorem digit_not_special {c : Char} (h : c.isDigit = true) :
    c ≠ 'n' ∧ c ≠ 't' ∧ c ≠ 'f' ∧ c ≠ '"' ∧ c ≠ '[' ∧ c ≠ '{' ∧
      c ≠ ']' ∧ c ≠ '}' ∧ c ≠ ',' ∧ c ≠ '-' := by
  refine ⟨?_, ?_, ?_, ?_, ?_, ?_, ?_, ?_, ?_, ?_⟩ <;>
    · rintro rfl
      exact absurd h (by decide)

/-- The fuel-based digit emitter agrees with `Nat.digits`. -/
theorem emitNatAux_eq_digits : ∀ (f n : Nat), n ≤ f →
    emitNatAux f n = (Nat.digits 10 n).map Nat.digitChar := by
  intro f
  induction f with
  | zero =>
    intro n h
    interval_cases n
    simp [emitNatAux]
  | succ f ih =>
    intro n h
    by_cases h0 : n = 0
    · subst h0; simp [emitNatAux]
    · have hdiv : n / 10 ≤ f := by
        have := Nat.div_lt_self (Nat.pos_of_ne_zero h0) (by norm_num : 1 < 10)
        omega
      rw [emitNatAux, if_neg h0, ih (n / 10) hdiv,
        Nat.digits_def' (by norm_num : 1 < 10) (Nat.pos_of_ne_zero h0)]
      simp

/-- Closed form of `emitNat` for a positive number. -/
theorem emitNat_eq {n : Nat} (h : n ≠ 0) :
    emitNat n = ((Nat.digits 10 n).map Nat.digitChar).reverse := by
  simp [emitNat, h, emitNatAux_eq_digits n n le_rfl]

/-- Every character emitted for a natural number is a digit. -/
theorem emitNat_digits (n : Nat) : ∀ c ∈ emitNat n, c.isDigit = true := by
  by_cases h : n = 0
  · subst h; intro c hc; simp [emitNat] at hc; subst hc; decide
  · rw [emitNat_eq h]
    intro c hc
    rw [List.mem_reverse, List.mem_map] at hc
    obtain ⟨d, hd, rfl⟩ := hc
    exact isDigit_digitChar (Nat.digits_lt_base (by norm_num) hd)

/-- The digit emission of a natural number is never empty. -/
theorem emitNat_ne_nil (n : Nat) : emitNat n ≠ [] := by
  by_cases h : n = 0
  · subst h; decide
  · rw [emitNat_eq h]
    simp [Nat.digits_ne_nil_iff_ne_zero.mpr h]

/-- The digit scanner consumes exactly a digit prefix when the remainder
does not begin with a digit. -/
theorem parseNatDigits_append :
    ∀ (ds rest : List Char), (∀ c ∈ ds, c.isDigit = true) → headNotDigit rest = true →
      parseNatDigits (ds ++ rest) = (ds, rest) := by
  intro ds
  induction ds with
  | nil =>
    intro rest _ hrest
    cases rest with
    | nil => rfl
    | cons c r =>
      have : c.isDigit = false := by simpa [headNotDigit] using hrest
      simp [parseNatDigits, this]
  | cons c ds ih =>
    intro rest hds hrest
    have hc : c.isDigit = true := hds c (List.mem_cons_self _ _)
    simp [parseNatDigits, hc, ih rest (fun d hd => hds d (List.mem_cons_of_mem _ hd)) hrest]

/-- Folding the accumulator over emitted digits recovers the number. -/
theorem foldl_digits :
    ∀ (l : List Nat) (a : Nat), (∀ d ∈ l, d < 10) →
      List.foldl (fun acc c => acc * 10 + (c.toNat - 48)) a ((l.map Nat.digitChar).reverse)
        = a * 10 ^ l.length + Nat.ofDigits 10 l := by
  intro l
  induction l with
  | nil => intro a _; simp [Nat.ofDigits_nil]
  | cons d t ih =>
    intro a hlt
    rw [List.map_cons, List.reverse_cons, List.foldl_append,
      ih a (fun d' hd' => hlt d' (List.mem_cons_of_mem _ hd'))]
    simp only [List.foldl_cons, List.foldl_nil]
    rw [toNat_digitChar (hlt d (List.mem_cons_self _ _)), Nat.ofDigits_cons]
    simp only [List.length_cons, pow_succ]
    ring

/-- The numeric value of `emitNat n` is `n`. -/
theorem digitsVal_emitNat (n : Nat) : digitsVal (emitNat n) = n := by
  by_cases h : n = 0
  · subst h; decide
  · rw [emitNat_eq h]
    unfold digitsVal
    rw [foldl_digits (Nat.digits 10 n) 0 (fun d hd => Nat.digits_lt_base (by norm_num) hd)]
    simp [Nat.ofDigits_digits]

/-- The integer token parser undoes `emitInt` whenever the remainder does
not begin with a digit. -/
theorem parseIntTok_emitInt (n : Int) (rest : List Char) (hrest : headNotDigit rest = true) :
    parseIntTok (emitInt n ++ rest) = some (n, rest) := by
  by_cases hneg : n < 0
  · rw [emitInt, if_pos hneg, List.cons_append]
    simp only [parseIntTok, if_pos rfl]
    rw [parseNatDigits_append _ rest (emitNat_digits _) hrest]
    have h1 : -(digitsVal (emitNat n.natAbs) : Int) = n := by
      rw [digitsVal_emitNat]; omega
    simp [emitNat_ne_nil, h1]
  · rw [emitInt, if_neg hneg]
    obtain ⟨c, cs, hcs⟩ := List.exists_cons_of_ne_nil (emitNat_ne_nil n.toNat)
    have hcdig : c.isDigit = true := emitNat_digits _ c (by rw [hcs]; exact List.mem_cons_self _ _)
    rw [hcs, List.cons_append]
    simp only [parseIntTok]
    rw [if_neg (digit_not_special hcdig).2.2.2.2.2.2.2.2.2]
    rw [← List.cons_append, ← hcs]
    rw [parseNatDigits_append _ rest (emitNat_digits _) hrest]
    have h1 : (digitsVal (emitNat n.toNat) : Int) = n := by
      rw [digitsVal_emitNat]; omega
    simp [emitNat_ne_nil, h1]

/-- The string-body parser undoes `escapeStr` up to the closing quote. -/
theorem parseStrBody_escape :
    ∀ (s rest : List Char), parseStrBody (escapeStr s ++ ('"' :: rest)) = some (s, rest) := by
  intro s
  induction s with
  | nil =>
    intro rest
    simp only [escapeStr, List.nil_append]
    rw [parseStrBody.eq_def]
    simp
  | cons c tl ih =>
    intro rest
    by_cases h : c = '"' ∨ c = '\\'
    · simp only [escapeStr, escChar, if_pos h, List.cons_append, List.append_assoc]
      rw [parseStrBody.eq_def]
      simp [h, ih]
    · have h1 : c ≠ '"' := fun hc => h (Or.inl hc)
      have h2 : c ≠ '\\' := fun hc => h (Or.inr hc)
      simp only [escapeStr, escChar, if_neg h, List.cons_append, List.singleton_append]
      rw [parseStrBody.eq_def]
      simp [h1, h2, ih]

/-- The first character emitted for a value is never a closing bracket,
closing brace or comma (so tail parsers branch correctly before it). -/
theorem emitVal_head (v : JValue) :
    ∃ c cs, emitVal v = c :: cs ∧ c ≠ ']' ∧ c ≠ '}' ∧ c ≠ ',' := by
  cases v with
  | jnull => exact ⟨'n', _, rfl, by decide, by decide, by decide⟩
  | jbool b =>
    cases b
    · exact ⟨'f', ['a', 'l', 's', 'e'], rfl, by decide, by decide, by decide⟩
    · exact ⟨'t', ['r', 'u', 'e'], rfl, by decide, by decide, by decide⟩
  | jnum n =>
    by_cases h : n < 0
    · exact ⟨'-', emitNat n.natAbs, by simp [emitVal, emitInt, h], by decide, by decide, by decide⟩
    · obtain ⟨c, cs, hcs⟩ := List.exists_cons_of_ne_nil (emitNat_ne_nil n.toNat)
      have hcdig : c.isDigit = true :=
        emitNat_digits _ c (by rw [hcs]; exact List.mem_cons_self _ _)
      have hsp := digit_not_special hcdig
      exact ⟨c, cs, by simp [emitVal, emitInt, h, hcs],
        hsp.2.2.2.2.2.2.1, hsp.2.2.2.2.2.2.2.1, hsp.2.2.2.2.2.2.2.2.1⟩
  | jstr s => exact ⟨'"', _, rfl, by decide, by decide, by decide⟩
  | jarr xs => exact ⟨'[', _, rfl, by decide, by decide, by decide⟩
  | jobj fs => exact ⟨'{', _, rfl, by decide, by decide, by decide⟩

/-- An emitted array tail starts with `]` or `,`, not with a digit. -/
theorem headNotDigit_emitArrTail (xs : JArr) (r : List Char) :
    headNotDigit (emitArrTail xs ++ r) = true := by
  cases xs <;> simp [emitArrTail, headNotDigit]

/-- An emitted object tail starts with `}` or `,`, not with a digit. -/
theorem headNotDigit_emitObjTail (fs : JObj) (r : List Char) :
    headNotDigit (emitObjTail fs ++ r) = true := by
  cases fs <;> simp [emitObjTail, headNotDigit]

/-- Fuel budgets are positive. -/
theorem sizeA_pos (xs : JArr) : 1 ≤ sizeA xs := by
  cases xs <;> simp [sizeA]

/-- Fuel budget of an object tail is positive. -/
theorem sizeO_pos (fs : JObj) : 1 ≤ sizeO fs := by
  cases fs <;> simp [sizeO]

/-- Fuel budget of a value is positive. -/
theorem sizeV_pos (v : JValue) : 1 ≤ sizeV v := by
  cases v with
  | jarr xs => simpa [sizeV] using sizeA_pos xs
  | jobj fs => simpa [sizeV] using sizeO_pos fs
  | _ => simp [sizeV]

/-- The member-key parser undoes the emission of `"key":`. -/
theorem parseMemberKey_emit (k : Str) (X : List Char) :
    parseMemberKey ('"' :: (escapeStr k ++ '"' :: ':' :: X)) = some (k, X) := by
  have h := parseStrBody_escape k (':' :: X)
  simp [parseMemberKey, h]

/-- Round-trip of the recursive-descent parser against the emitter, for
every fuel budget at least the size of the value. -/
theorem parse_emit_all : ∀ f : Nat,
    (∀ (v : JValue) (rest : List Char), sizeV v ≤ f → headNotDigit rest = true →
      parseVal f (emitVal v ++ rest) = some (v, rest)) ∧
    (∀ (xs : JArr) (rest : List Char), sizeA xs ≤ f →
      parseArrTail f (emitArrTail xs ++ rest) = some (xs, rest)) ∧
    (∀ (fs : JObj) (rest : List Char), sizeO fs ≤ f →
      parseObjTail f (emitObjTail fs ++ rest) = some (fs, rest)) := by
  intro f
  induction f with
  | zero =>
    refine ⟨?_, ?_, ?_⟩
    · intro v _ hs _; exact absurd hs (by have := sizeV_pos v; omega)
    · intro xs _ hs; exact absurd hs (by have := sizeA_pos xs; omega)
    · intro fs _ hs; exact absurd hs (by have := sizeO_pos fs; omega)
  | succ f ih =>
    obtain ⟨ihV, ihA, ihO⟩ := ih
    refine ⟨?_, ?_, ?_⟩
    · intro v rest hs hrest
      cases v with
      | jnull =>
        simp only [emitVal, List.cons_append, List.nil_append]
        simp [parseVal]
      | jbool b =>
        cases b <;>
          · simp only [emitVal, List.cons_append, List.nil_append]
            simp [parseVal]
      | jnum n =>
        by_cases hneg : n < 0
        · have hp := parseIntTok_emitInt n rest hrest
          rw [emitInt, if_pos hneg, List.cons_append] at hp
          simp only [emitVal, emitInt, if_pos hneg, List.cons_append]
          simp [parseVal, hp]
        · obtain ⟨c, cs, hcs⟩ := List.exists_cons_of_ne_nil (emitNat_ne_nil n.toNat)
          have hcdig : c.isDigit = true :=
            emitNat_digits _ c (by rw [hcs]; exact List.mem_cons_self _ _)
          have hsp := digit_not_special hcdig
          have hp := parseIntTok_emitInt n rest hrest
          rw [emitInt, if_neg hneg, hcs, List.cons_append] at hp
          simp only [emitVal, emitInt, if_neg hneg]
          rw [hcs, List.cons_append]
          simp [parseVal, hsp.1, hsp.2.1, hsp.2.2.1, hsp.2.2.2.1, hsp.2.2.2.2.1,
            hsp.2.2.2.2.2.1, hp]
      | jstr s =>
        simp only [emitVal, List.cons_append, List.append_assoc, List.singleton_append]
        simp [parseVal, parseStrBody_escape s rest]
      | jarr xs =>
        cases xs with
        | nil =>
          simp only [emitVal, emitArrBody, List.cons_append, List.singleton_append]
          simp [parseVal]
        | cons v tl =>
          have hsz : sizeV v ≤ f ∧ sizeA tl ≤ f := by
            simp only [sizeV, sizeA] at hs
            omega
          have hv := ihV v (emitArrTail tl ++ rest) hsz.1 (headNotDigit_emitArrTail tl rest)
          have ht := ihA tl rest hsz.2
          obtain ⟨c, cs, hc, hne1, hne2, hne3⟩ := emitVal_head v
          rw [hc, List.cons_append] at hv
          simp only [emitVal, emitArrBody, List.cons_append, List.append_assoc]
          rw [hc, List.cons_append]
          simp [parseVal, hne1, hv, ht]
      | jobj fs =>
        cases fs with
        | nil =>
          simp only [emitVal, emitObjBody, List.cons_append, List.singleton_append]
          simp [parseVal]
        | cons k v tl =>
          have hsz : sizeV v ≤ f ∧ sizeO tl ≤ f := by
            simp only [sizeV, sizeO] at hs
            omega
          have hv := ihV v (emitObjTail tl ++ rest) hsz.1 (headNotDigit_emitObjTail tl rest)
          have ht := ihO tl rest hsz.2
          have hk := parseMemberKey_emit k (emitVal v ++ (emitObjTail tl ++ rest))
          simp only [emitVal, emitObjBody, List.cons_append, List.append_assoc]
          simp [parseVal, hk, hv, ht]
    · intro xs rest hs
      cases xs with
      | nil =>
        simp only [emitArrTail, List.cons_append, List.singleton_append]
        simp [parseArrTail]
      | cons v tl =>
        have hsz : sizeV v ≤ f ∧ sizeA tl ≤ f := by
          simp only [sizeA] at hs
          omega
        have hv := ihV v (emitArrTail tl ++ rest) hsz.1 (headNotDigit_emitArrTail tl rest)
        have ht := ihA tl rest hsz.2
        simp only [emitArrTail, List.cons_append, List.append_assoc]
        simp [parseArrTail, hv, ht]
    · intro fs rest hs
      cases fs with
      | nil =>
        simp only [emitObjTail, List.cons_append, List.singleton_append]
        simp [parseObjTail]
      | cons k v tl =>
        have hsz : sizeV v ≤ f ∧ sizeO tl ≤ f := by
          simp only [sizeO] at hs
          omega
        have hv := ihV v (emitObjTail tl ++ rest) hsz.1 (headNotDigit_emitObjTail tl rest)
        have ht := ihO tl rest hsz.2
        have hk := parseMemberKey_emit k (emitVal v ++ (emitObjTail tl ++ rest))
        simp only [emitObjTail, List.cons_append, List.append_assoc]
        simp [parseObjTail, hk, hv, ht]

/-- The emission of a value is at least as long as its fuel budget, for
every bound on the budget. -/
theorem emit_length_all : ∀ n : Nat,
    (∀ v : JValue, sizeV v ≤ n → sizeV v ≤ (emitVal v).length) ∧
    (∀ xs : JArr, sizeA xs ≤ n → sizeA xs ≤ (emitArrTail xs).length) ∧
    (∀ fs : JObj, sizeO fs ≤ n → sizeO fs ≤ (emitObjTail fs).length) := by
  intro n
  induction n with
  | zero =>
    refine ⟨?_, ?_, ?_⟩
    · intro v hs; exact absurd hs (by have := sizeV_pos v; omega)
    · intro xs hs; exact absurd hs (by have := sizeA_pos xs; omega)
    · intro fs hs; exact absurd hs (by have := sizeO_pos fs; omega)
  | succ n ih =>
    obtain ⟨ihV, ihA, ihO⟩ := ih
    refine ⟨?_, ?_, ?_⟩
    · intro v hs
      cases v with
      | jnull => simp [emitVal, sizeV]
      | jbool b => cases b <;> simp [emitVal, sizeV]
      | jnum m =>
        have : emitInt m ≠ [] := by
          unfold emitInt
          by_cases h : m < 0
          · simp [h]
          · simp [h, emitNat_ne_nil]
        have : 1 ≤ (emitInt m).length := by
          cases hh : emitInt m with
          | nil => exact absurd hh this
          | cons a l => simp
        simpa [emitVal, sizeV] using this
      | jstr s => simp [emitVal, sizeV]
      | jarr xs =>
        cases xs with
        | nil => simp [emitVal, emitArrBody, sizeV, sizeA]
        | cons v tl =>
          have hsz : sizeV v ≤ n ∧ sizeA tl ≤ n := by
            simp only [sizeV, sizeA] at hs
            omega
          have h1 := ihV v hsz.1
          have h2 := ihA tl hsz.2
          simp only [emitVal, emitArrBody, sizeV, sizeA, List.length_cons, List.length_append]
          omega
      | jobj fs =>
        cases fs with
        | nil => simp [emitVal, emitObjBody, sizeV, sizeO]
        | cons k v tl =>
          have hsz : sizeV v ≤ n ∧ sizeO tl ≤ n := by
            simp only [sizeV, sizeO] at hs
            omega
          have h1 := ihV v hsz.1
          have h2 := ihO tl hsz.2
          simp only [emitVal, emitObjBody, sizeV, sizeO, List.length_cons, List.length_append]
          omega
    · intro xs hs
      cases xs with
      | nil => simp [emitArrTail, sizeA]
      | cons v tl =>
        have hsz : sizeV v ≤ n ∧ sizeA tl ≤ n := by
          simp only [sizeA] at hs
          omega
        have h1 := ihV v hsz.1
        have h2 := ihA tl hsz.2
        simp only [emitArrTail, sizeA, List.length_cons, List.length_append]
        omega
    · intro fs hs
      cases fs with
      | nil => simp [emitObjTail, sizeO]
      | cons k v tl =>
        have hsz : sizeV v ≤ n ∧ sizeO tl ≤ n := by
          simp only [sizeO] at hs
          omega
        have h1 := ihV v hsz.1
        have h2 := ihO tl hsz.2
        simp only [emitObjTail, sizeO, List.length_cons, List.length_append]
        omega

/-- The serializer and deserializer round-trip on every value. -/
theorem parseJ_stringifyJ (v : JValue) : parseJ (stringifyJ v) = some v := by
  have hlen : sizeV v ≤ (emitVal v).length + 1 := by
    have := (emit_length_all (sizeV v)).1 v le_rfl
    omega
  have h := (parse_emit_all ((emitVal v).length + 1)).1 v [] hlen rfl
  rw [List.append_nil] at h
  unfold parseJ stringifyJ
  rw [h]

/-- A `get` on a key holding the serialization of `v` returns `v`. -/
theorem getStorage_found (fs : FailSpec) (st : Store) (k : Str) (v : JValue)
    (hget : fs.getFails k = false) (hsome : st.lookupKey k = some (stringifyJ v)) :
    getStorage fs st k = (v, false) := by
  have hne : stringifyJ v ≠ [] := by
    obtain ⟨c, cs, hc, -, -, -⟩ := emitVal_head v
    simp [stringifyJ, hc]
  have hparse : rawParse (stringifyJ v) = Except.ok v := by
    simp [rawParse, parseJ_stringifyJ]
  simp [getStorage, rawGetItem, hget, hsome, hne, hparse]

/-- C3: with working serialization and store, `set(k, v)` followed by
`get(k)` returns a value equal to `v`, for every serializable value. -/
theorem storage_roundtrip (fs : FailSpec) (st : Store) (k : Str) (v : JValue)
    (h1 : fs.stringifyFails v = false)
    (h2 : fs.setFails k (stringifyJ v) = false)
    (h3 : fs.getFails k = false) :
    getStorage fs (setStorage fs st k v).1 k = (v, false) := by
  rw [setStorage_ok fs st k v h1 h2]
  exact getStorage_found fs _ k v h3 (Store.lookupKey_insertKey st k (stringifyJ v))

/-- Witness for `storage_roundtrip` at the spec's example value `{a:1}`. -/
theorem storage_roundtrip_witness :
    getStorage noFail
        (setStorage noFail [] ['k'] (JValue.jobj (JObj.cons ['a'] (JValue.jnum 1) JObj.nil))).1
        ['k']
      = (JValue.jobj (JObj.cons ['a'] (JValue.jnum 1) JObj.nil), false) :=
  storage_roundtrip noFail [] ['k'] (JValue.jobj (JObj.cons ['a'] (JValue.jnum 1) JObj.nil))
    rfl rfl rfl

/-- C10: the sentinel is the value `null` itself, and a stored `null`
collides with it — `set(k, null)` followed by `get(k)` returns exactly
the result of `get` on an absent key, so a stored `null` cannot be
distinguished from a miss. -/
theorem storage_null_collides_with_miss (fs : FailSpec) (st : Store) (k : Str)
    (h1 : fs.stringifyFails JValue.jnull = false)
    (h2 : fs.setFails k (stringifyJ JValue.jnull) = false)
    (h3 : fs.getFails k = false) :
    getStorage fs (setStorage fs st k JValue.jnull).1 k = (JValue.jnull, false) ∧
    (∀ st2 : Store, st2.lookupKey k = none → getStorage fs st2 k = (JValue.jnull, false)) := by
  constructor
  · rw [setStorage_ok fs st k JValue.jnull h1 h2]
    exact getStorage_found fs _ k JValue.jnull h3
      (Store.lookupKey_insertKey st k (stringifyJ JValue.jnull))
  · intro st2 hm
    exact getStorage_miss fs st2 k h3 hm

/-- Witness for `storage_null_collides_with_miss` at a concrete key. -/
theorem storage_null_collides_with_miss_witness :
    getStorage noFail (setStorage noFail [] ['k'] JValue.jnull).1 ['k']
        = (JValue.jnull, false) ∧
    getStorage noFail [] ['k'] = (JValue.jnull, false) := by
  obtain ⟨ha, hb⟩ := storage_null_collides_with_miss noFail [] ['k'] rfl rfl rfl
  exact ⟨ha, hb [] rfl⟩
